import Mathlib

/-!
Verification of the lemon_tizer lemmatization facade.

The development embeds the two cores of `src/lemon_tizer/main.py`:

* the token filtering / normalization pipeline of `lemmatize_sentence`, and
* the model-resolution algorithm of `find_model_name`.

Python strings are embedded as `List Char`; the external spacy pipeline is
an explicit function parameter producing annotated tokens; raised
exceptions are embedded as `none` / `Except.error`.
-/

/-- Embedding of a spacy annotated token: the original surface text,
the lemma string, the alphabetic flag and the stop-word flag. -/
structure Token where
  text : List Char
  lemma_ : List Char
  is_alpha : Bool
  is_stop : Bool

/-- The five boolean lemmatization settings of `set_lemma_settings`. -/
structure LemmaSettings where
  filter_out_non_alpha : Bool
  filter_out_common : Bool
  convert_input_to_lower : Bool
  convert_output_to_lower : Bool
  return_just_first_word_of_lemma : Bool

/-- Embedding of Python `str.lower()` (ASCII letters). -/
def lower (s : List Char) : List Char := s.map Char.toLower

/-- Accumulator-based worker for Python `str.split()` (split on runs of
whitespace, discarding empty pieces). `acc` holds the current word reversed. -/
def splitAux : List Char → List Char → List (List Char)
  | [], acc => if acc = [] then [] else [acc.reverse]
  | c :: rest, acc =>
    if c.isWhitespace then
      if acc = [] then splitAux rest [] else acc.reverse :: splitAux rest []
    else splitAux rest (c :: acc)

/-- Embedding of Python `str.split()` with no arguments. -/
def pySplit (s : List Char) : List (List Char) := splitAux s []

/-- The per-token skip condition of `lemmatize_sentence`
(`is_not_word or is_common`). -/
def dropToken (st : LemmaSettings) (t : Token) : Bool :=
  ((!t.is_alpha) && st.filter_out_non_alpha) || (t.is_stop && st.filter_out_common)

/-- Embedding of the token loop of `lemmatize_sentence`.  `none` embeds the
`IndexError` that `lemma.split()[0]` raises when the split list is empty. -/
def processTokens (st : LemmaSettings) : List Token → Option (List (List Char × List Char))
  | [] => some []
  | token :: rest =>
    let is_not_word := (!token.is_alpha) && st.filter_out_non_alpha
    let is_common := token.is_stop && st.filter_out_common
    let skip_word := is_not_word || is_common
    if skip_word then processTokens st rest
    else
      match (if st.return_just_first_word_of_lemma
             then (pySplit token.lemma_).head? else some token.lemma_) with
      | none => none
      | some lem =>
        let lem2 := if st.convert_output_to_lower then lower lem else lem
        (processTokens st rest).map (fun ws => (token.text, lem2) :: ws)

/-- Embedding of `lemmatize_sentence`: optional input lowercasing, annotation
by the external pipeline `nlp`, then the token loop. -/
def lemmatize_sentence (st : LemmaSettings) (nlp : List Char → List Token)
    (input_str : List Char) : Option (List (List Char × List Char)) :=
  let input_str := if st.convert_input_to_lower then lower input_str else input_str
  let doc := nlp input_str
  processTokens st doc

/-- The final lemma emitted for a surviving token (defined when the
first-word truncation does not raise). -/
def finalLemma (st : LemmaSettings) (t : Token) : List Char :=
  let l1 := if st.return_just_first_word_of_lemma
            then (pySplit t.lemma_).headD [] else t.lemma_
  if st.convert_output_to_lower then lower l1 else l1




/-!
## Model resolution

`find_model_name` interpolates the lowercased language and size codes into
the pattern `f"{language}.*{model_size}"` and applies `regex.match` (anchored
at position 0) to every catalog entry.  We embed the fragment of the Python
regex syntax reachable from such patterns: literal characters, `.` (any
character but a newline), a postfix `*` on a single-character atom, and the
`^` start anchor.  Patterns using other metacharacters are outside the
modelled fragment and make the embedding return `none`.
-/

/-- Regex atoms of the modelled fragment. -/
inductive Atom where
  | lit (c : Char)
  | dot
  | caret
  | star (a : Atom)
deriving DecidableEq

/-- Metacharacters of Python regexes that the modelled fragment rejects. -/
def metaChars : List Char := ['+', '?', '[', ']', '(', ')', '\x7b', '\x7d', '|', '\\', '$']

/-- A character the modelled parser refuses outright (`*` needs a preceding
repeatable atom, handled separately). -/
def badChar (c : Char) : Bool := metaChars.contains c || c == '*'

/-- The atom denoted by a single pattern character. -/
def atomOf (c : Char) : Atom :=
  if c == '^' then Atom.caret else if c == '.' then Atom.dot else Atom.lit c

/-- Parser for the modelled regex fragment (mirrors `re.compile` on the
patterns `find_model_name` can build). -/
def parseAtoms : List Char → Option (List Atom)
  | [] => some []
  | [c] => if badChar c then none else some [atomOf c]
  | c :: c2 :: rest =>
    if badChar c then none
    else if c2 == '*' then
      if c == '^' then none
      else (parseAtoms rest).map (fun as => Atom.star (atomOf c) :: as)
    else (parseAtoms (c2 :: rest)).map (fun as => atomOf c :: as)

/-- The atom list denoting a pure literal string. -/
def litAtoms (s : List Char) : List Atom := s.map Atom.lit

/-- Whether a single-character atom matches one character. -/
def matchOne : Atom → Char → Bool
  | Atom.lit c, x => x == c
  | Atom.dot, x => !(x == '\n')
  | Atom.caret, _ => false
  | Atom.star _, _ => false

/-- Kleene-star loop: skip any number of characters accepted by `a`, then
hand over to the continuation `cont` (the match for the remaining atoms).
The boolean argument tracks whether we are still at the start of the
string (for `^`). -/
def starCase (cont : List Char → Bool → Bool) (a : Atom) : List Char → Bool → Bool
  | [], b => cont [] b
  | x :: t, b => cont (x :: t) b || (matchOne a x && starCase cont a t false)

/-- Matching relation: `matchAtoms as s b = true` iff the atom sequence `as` matches a prefix of
`s`; `b` records whether position 0 of the subject string has not been
passed yet.  This is the Python `regex.match` (anchored at the start, not
required to consume the whole string). -/
def matchAtoms : List Atom → List Char → Bool → Bool
  | [], _, _ => true
  | Atom.caret :: as, s, b => b && matchAtoms as s b
  | Atom.lit _ :: _, [], _ => false
  | Atom.lit c :: as, x :: t, _ => x == c && matchAtoms as t false
  | Atom.dot :: _, [], _ => false
  | Atom.dot :: as, x :: t, _ => !(x == '\n') && matchAtoms as t false
  | Atom.star a :: as, s, b => starCase (fun t c => matchAtoms as t c) a s b

/-- The two failure kinds of `find_model_name` (the `ValueError` carries the
lowercased language and size codes in both cases). -/
inductive FindError where
  | unsupportedModelSize (language model_size : List Char)
  | unsupportedLanguage (language model_size : List Char)
deriving DecidableEq

/-- Embedding of `find_model_name`: lowercase the codes, filter the catalog
through `regex.match` of `f"{language}.*{model_size}"`, return the first
match; otherwise decide the error kind by the prefix-only pattern
`f"^{language}"`.  `none` marks patterns outside the modelled fragment. -/
def find_model_name (available_models : List (List Char))
    (language model_size : List Char) : Option (Except FindError (List Char)) :=
  let language := lower language
  let model_size := lower model_size
  match parseAtoms (language ++ '.' :: '*' :: model_size) with
  | none => none
  | some atoms =>
    match available_models.filter (fun m => matchAtoms atoms m true) with
    | m :: _ => some (Except.ok m)
    | [] =>
      match parseAtoms ('^' :: language) with
      | none => none
      | some atoms2 =>
        match available_models.filter (fun m => matchAtoms atoms2 m true) with
        | _ :: _ => some (Except.error (FindError.unsupportedModelSize language model_size))
        | [] => some (Except.error (FindError.unsupportedLanguage language model_size))

/-!
## Spec-side matching rule

§4.1 words the full rule as: an identifier matches if it starts with the
language code, followed by any characters, followed by the size code
somewhere after that point.
-/

/-- Occurrence test `occursIn S t`: the size code `S` occurs contiguously somewhere in `t`. -/
def occursIn (S : List Char) : List Char → Bool
  | [] => S.isPrefixOf []
  | x :: t => S.isPrefixOf (x :: t) || occursIn S t

/-- Spec-side full matching rule: entry begins with the language code and
contains the size code somewhere after that prefix. -/
def specFullMatch (L S e : List Char) : Bool :=
  L.isPrefixOf e && occursIn S (e.drop L.length)

/-- Characters with no special meaning in the modelled regex fragment. -/
def isLiteralChar (c : Char) : Bool :=
  !badChar c && !(c == '.') && !(c == '^')

/-- Substring occurrence where every skipped character must be accepted by
`.` (i.e. not a newline): the exact semantics of `.*S` on the rest of the
entry. -/
def containsAfterSkip (S : List Char) : List Char → Bool
  | [] => S.isPrefixOf []
  | x :: t => S.isPrefixOf (x :: t) || (!(x == '\n') && containsAfterSkip S t)

instance : DecidableEq (Except FindError (List Char)) := fun a b =>
  match a, b with
  | Except.ok x, Except.ok y => decidable_of_iff (x = y) (by simp)
  | Except.ok _, Except.error _ => isFalse (by simp)
  | Except.error _, Except.ok _ => isFalse (by simp)
  | Except.error x, Except.error y => decidable_of_iff (x = y) (by simp)

def enCoreWebSm : List Char := ['e','n','_','c','o','r','e','_','w','e','b','_','s','m']
def enCoreWebLg : List Char := ['e','n','_','c','o','r','e','_','w','e','b','_','l','g']
def esCoreNewsLg : List Char := ['e','s','_','c','o','r','e','_','n','e','w','s','_','l','g']





/-!
## Facade state

The `LemonTizer` class fields.  Methods become state-passing functions:
a method that raises is embedded as returning the state at the point of the
raise together with `Except.error`.
-/

/-- The fields of the `LemonTizer` class: the loaded pipeline, the stored
model name, and the five lemmatization settings. -/
structure LemonTizer where
  _nlp : List Char → List Token
  _model_name : List Char
  _filter_out_non_alpha : Bool
  _filter_out_common : Bool
  _convert_input_to_lower : Bool
  _convert_output_to_lower : Bool
  _return_just_first_word_of_lemma : Bool

/-- The settings record currently stored in the facade. -/
def LemonTizer.settings (self : LemonTizer) : LemmaSettings :=
  LemmaSettings.mk self._filter_out_non_alpha self._filter_out_common
    self._convert_input_to_lower self._convert_output_to_lower
    self._return_just_first_word_of_lemma

/-- Embedding of `set_lemma_settings`: assigns the five settings fields. -/
def set_lemma_settings (self : LemonTizer)
    (filter_out_non_alpha filter_out_common convert_input_to_lower
     convert_output_to_lower return_just_first_word_of_lemma : Bool) : LemonTizer :=
  LemonTizer.mk self._nlp self._model_name filter_out_non_alpha filter_out_common
    convert_input_to_lower convert_output_to_lower return_just_first_word_of_lemma

/-- Embedding of `_load_model`: stores the model name and the pipeline
produced by the external `spacy.load` (parameter `load`). -/
def _load_model (load : List Char → List Char → List Token)
    (self : LemonTizer) (model_name : List Char) : LemonTizer :=
  LemonTizer.mk (load model_name) model_name self._filter_out_non_alpha
    self._filter_out_common self._convert_input_to_lower
    self._convert_output_to_lower self._return_just_first_word_of_lemma

/-- Embedding of `init_model`: resets the settings to defaults, resolves the
model name, then loads (the install path does not touch facade state, so
both branches of the `is_model_installed` check reduce to `_load_model`).
The result pairs the facade state after the call (or after the raise) with
the outcome; `none` again marks resolution outside the modelled fragment. -/
def init_model (catalog : List (List Char)) (load : List Char → List Char → List Token)
    (self : LemonTizer) (language model_size : List Char) :
    Option (LemonTizer × Except FindError Unit) :=
  let self := set_lemma_settings self false false false false false
  match find_model_name catalog language model_size with
  | none => none
  | some (Except.error e) => some (self, Except.error e)
  | some (Except.ok model_name) => some (_load_model load self model_name, Except.ok ())

/-- Embedding of the `lemmatize_sentence` method: reads the settings fields
and the pipeline from the facade state and threads the state through. -/
def LemonTizer.lemmatize_sentence_m (self : LemonTizer) (input_str : List Char) :
    LemonTizer × Option (List (List Char × List Char)) :=
  let input_str := if self._convert_input_to_lower then lower input_str else input_str
  let doc := self._nlp input_str
  (self, processTokens self.settings doc)

/-!
## Concrete instances used by witnesses and counterexamples
-/

def nlpC2 : List Char → List Token := fun _ =>
  [⟨['T','h','e'], ['t','h','e'], true, true⟩,
   ⟨[','], [','], false, false⟩,
   ⟨['c','a','t','s'], ['c','a','t'], true, false⟩,
   ⟨['c','a','t','s'], ['c','a','t'], true, false⟩]

def stC4 : LemmaSettings := ⟨false, false, false, false, true⟩

def tokC4 : Token := ⟨['x'], [], true, false⟩

/-- The settings record with the two filter options replaced. -/
def LemmaSettings.withFilters (st : LemmaSettings) (fa fc : Bool) : LemmaSettings :=
  LemmaSettings.mk fa fc st.convert_input_to_lower st.convert_output_to_lower
    st.return_just_first_word_of_lemma

/-- The settings record with the first-word option replaced. -/
def LemmaSettings.withFirstWord (st : LemmaSettings) (r : Bool) : LemmaSettings :=
  LemmaSettings.mk st.filter_out_non_alpha st.filter_out_common
    st.convert_input_to_lower st.convert_output_to_lower r

def nlpC8 : List Char → List Token := fun _ => [⟨['a'], ['b', ' ', 'c'], true, false⟩]

def nlpC9 : List Char → List Token := fun s => [⟨s, s, true, false⟩]

def nlpCex : List Char → List Token := fun _ => []

def loadCex : List Char → List Char → List Token := fun _ _ => []

def s0cex : LemonTizer := ⟨nlpCex, ['o','l','d'], true, true, true, true, true⟩

def s1cex : LemonTizer := ⟨nlpCex, ['o','l','d'], false, false, false, false, false⟩

/-!
## Lemmas about the modelled regex fragment
-/

lemma isLiteralChar_spec {c : Char} (h : isLiteralChar c = true) :
    badChar c = false ∧ (c == '.') = false ∧ (c == '^') = false ∧ (c == '*') = false := by
  unfold isLiteralChar at h
  simp only [Bool.and_eq_true, Bool.not_eq_true'] at h
  refine ⟨h.1.1, h.1.2, h.2, ?_⟩
  have hb := h.1.1
  unfold badChar at hb
  simp only [Bool.or_eq_false_iff] at hb
  exact hb.2

lemma atomOf_lit {c : Char} (h : isLiteralChar c = true) : atomOf c = Atom.lit c := by
  obtain ⟨-, h2, h3, -⟩ := isLiteralChar_spec h
  simp [atomOf, h2, h3]

lemma parse_lit (S : List Char) (h : ∀ c ∈ S, isLiteralChar c = true) :
    parseAtoms S = some (litAtoms S) := by
  induction S with
  | nil => simp [parseAtoms, litAtoms]
  | cons c S ih =>
    have hc := isLiteralChar_spec (h c (by simp))
    cases S with
    | nil => simp [parseAtoms, litAtoms, hc.1, atomOf_lit (h c (by simp))]
    | cons c2 S' =>
      have hc2 := isLiteralChar_spec (h c2 (by simp))
      rw [parseAtoms.eq_3]
      rw [if_neg (by simp [hc.1]), if_neg (by simp [hc2.2.2.2])]
      rw [ih (fun x hx => h x (by simp [hx]))]
      simp [litAtoms, atomOf_lit (h c (by simp))]

lemma parse_pattern (L S : List Char) (hL : ∀ c ∈ L, isLiteralChar c = true)
    (hS : ∀ c ∈ S, isLiteralChar c = true) :
    parseAtoms (L ++ '.' :: '*' :: S) =
      some (litAtoms L ++ Atom.star Atom.dot :: litAtoms S) := by
  induction L with
  | nil =>
    rw [List.nil_append, parseAtoms]
    rw [if_neg (by decide), if_pos (by decide), if_neg (by decide)]
    rw [parse_lit S hS]
    simp [litAtoms, atomOf]
  | cons c L' ih =>
    have hc := isLiteralChar_spec (hL c (by simp))
    have ih' := ih (fun x hx => hL x (by simp [hx]))
    cases L' with
    | nil =>
      rw [List.cons_append, List.nil_append, parseAtoms]
      rw [if_neg (by simp [hc.1]), if_neg (by decide)]
      rw [List.nil_append] at ih'
      rw [ih']
      simp [litAtoms, atomOf_lit (hL c (by simp))]
    | cons c2 L'' =>
      have hc2 := isLiteralChar_spec (hL c2 (by simp))
      rw [List.cons_append, List.cons_append, parseAtoms]
      rw [if_neg (by simp [hc.1]), if_neg (by simp [hc2.2.2.2])]
      rw [List.cons_append] at ih'
      rw [ih']
      simp [litAtoms, atomOf_lit (hL c (by simp))]

lemma parse_caret (L : List Char) (hL : ∀ c ∈ L, isLiteralChar c = true) :
    parseAtoms ('^' :: L) = some (Atom.caret :: litAtoms L) := by
  cases L with
  | nil => decide
  | cons c L' =>
    have hc := isLiteralChar_spec (hL c (by simp))
    rw [parseAtoms]
    rw [if_neg (by decide), if_neg (by simp [hc.2.2.2])]
    rw [parse_lit (c :: L') hL]
    simp [atomOf]

lemma match_lits (S : List Char) : ∀ (s : List Char) (b : Bool),
    matchAtoms (litAtoms S) s b = S.isPrefixOf s := by
  induction S with
  | nil => intro s b; simp [litAtoms, matchAtoms, List.isPrefixOf]
  | cons c S ih =>
    intro s b
    cases s with
    | nil => simp [litAtoms, matchAtoms, List.isPrefixOf]
    | cons x t =>
      show (x == c && matchAtoms (litAtoms S) t false) = (c == x && S.isPrefixOf t)
      rw [ih t false, BEq.comm]

lemma starCase_dot (S : List Char) (s : List Char) : ∀ (b : Bool),
    starCase (fun t c => matchAtoms (litAtoms S) t c) Atom.dot s b =
      containsAfterSkip S s := by
  induction s with
  | nil => intro b; simp [starCase, containsAfterSkip, match_lits]
  | cons x t ih =>
    intro b
    simp only [starCase, containsAfterSkip, matchOne]
    rw [match_lits, ih]

lemma matchFull_eq (L S : List Char) : ∀ (s : List Char) (b : Bool),
    matchAtoms (litAtoms L ++ Atom.star Atom.dot :: litAtoms S) s b =
      (L.isPrefixOf s && containsAfterSkip S (s.drop L.length)) := by
  induction L with
  | nil =>
    intro s b
    show matchAtoms (Atom.star Atom.dot :: litAtoms S) s b = _
    rw [matchAtoms, starCase_dot]
    simp [List.isPrefixOf]
  | cons c L' ih =>
    intro s b
    cases s with
    | nil => simp [litAtoms, matchAtoms, List.isPrefixOf]
    | cons x t =>
      show (x == c && matchAtoms (litAtoms L' ++ _) t false) = _
      rw [ih t false]
      show _ = ((c == x && L'.isPrefixOf t) && containsAfterSkip S (t.drop L'.length))
      rw [BEq.comm, Bool.and_assoc]

lemma match_caret (L : List Char) (s : List Char) :
    matchAtoms (Atom.caret :: litAtoms L) s true = L.isPrefixOf s := by
  rw [matchAtoms, match_lits]
  simp

lemma containsAfterSkip_eq_occursIn (S : List Char) :
    ∀ t : List Char, '\n' ∉ t → containsAfterSkip S t = occursIn S t := by
  intro t
  induction t with
  | nil => intro _; rfl
  | cons x t ih =>
    intro h
    have hx : (x == '\n') = false := by
      simp only [List.mem_cons, not_or] at h
      exact beq_eq_false_iff_ne.mpr (fun hh => h.1 hh.symm)
    have ht : '\n' ∉ t := by
      simp only [List.mem_cons, not_or] at h
      exact h.2
    simp [containsAfterSkip, occursIn, hx, ih ht]

/-- On newline-free entries, the compiled pattern `{L}.*{S}` agrees with the
spec anchored-prefix, ordered-substring rule. -/
lemma code_match_eq_spec (L S e : List Char) (hNL : '\n' ∉ e) :
    matchAtoms (litAtoms L ++ Atom.star Atom.dot :: litAtoms S) e true =
      specFullMatch L S e := by
  rw [matchFull_eq]
  unfold specFullMatch
  rw [containsAfterSkip_eq_occursIn S (e.drop L.length)
    (fun hmem => hNL (List.drop_subset _ _ hmem))]

/-!
## Claim theorems: model resolution
-/

/-- C1: for every catalog and (language, size) pair (codes made of plain
literal characters, newline-free catalog), if at least one catalog entry
begins with the lowercased language code and contains the lowercased size
code somewhere after that prefix, then `find_model_name` returns the first
such entry in catalog iteration order — the head of the filtered list,
never a later match. -/
theorem find_first_full_match (catalog : List (List Char)) (language model_size : List Char)
    (hL : ∀ c ∈ lower language, isLiteralChar c = true)
    (hS : ∀ c ∈ lower model_size, isLiteralChar c = true)
    (hNL : ∀ e ∈ catalog, '\n' ∉ e)
    (m : List Char)
    (hfirst : (catalog.filter
        (fun e => specFullMatch (lower language) (lower model_size) e)).head? = some m) :
    find_model_name catalog language model_size = some (Except.ok m) := by
  simp only [find_model_name, parse_pattern (lower language) (lower model_size) hL hS]
  have hfil : catalog.filter
      (fun e => matchAtoms
        (litAtoms (lower language) ++ Atom.star Atom.dot :: litAtoms (lower model_size)) e true)
      = catalog.filter (fun e => specFullMatch (lower language) (lower model_size) e) :=
    List.filter_congr (fun e he => code_match_eq_spec _ _ e (hNL e he))
  rw [hfil]
  cases hsplit : catalog.filter (fun e => specFullMatch (lower language) (lower model_size) e) with
  | nil => rw [hsplit] at hfirst; simp at hfirst
  | cons a tl =>
    rw [hsplit] at hfirst
    simp only [List.head?_cons, Option.some.injEq] at hfirst
    rw [hfirst]

/-- Witness for C1: with catalog `[en_core_web_sm, en_core_web_lg]` and
codes `("en", "")` both entries satisfy the full rule and the first one in
catalog order is returned. -/
theorem find_first_full_match_w :
    find_model_name [enCoreWebSm, enCoreWebLg] ['e', 'n'] [] =
      some (Except.ok enCoreWebSm) :=
  find_first_full_match [enCoreWebSm, enCoreWebLg] ['e', 'n'] []
    (by decide) (by decide) (by decide) enCoreWebSm (by decide)

/-- C3: with no full-rule match (codes of plain literal characters,
newline-free catalog), the failure kind is decided by the prefix-only rule:
some entry starting with the language code gives the unsupported-model-size
error, none gives the unsupported-language error (hence an empty catalog
always gives the latter). -/
theorem find_error_kinds (catalog : List (List Char)) (language model_size : List Char)
    (hL : ∀ c ∈ lower language, isLiteralChar c = true)
    (hS : ∀ c ∈ lower model_size, isLiteralChar c = true)
    (hNL : ∀ e ∈ catalog, '\n' ∉ e)
    (hnone : ∀ e ∈ catalog, specFullMatch (lower language) (lower model_size) e = false) :
    find_model_name catalog language model_size =
      some (Except.error
        (if catalog.any (fun e => (lower language).isPrefixOf e)
         then FindError.unsupportedModelSize (lower language) (lower model_size)
         else FindError.unsupportedLanguage (lower language) (lower model_size))) := by
  have hfil : catalog.filter
      (fun e => matchAtoms
        (litAtoms (lower language) ++ Atom.star Atom.dot :: litAtoms (lower model_size)) e true)
      = [] := by
    rw [List.filter_congr (fun e he => code_match_eq_spec _ _ e (hNL e he))]
    exact List.filter_eq_nil_iff.mpr (fun e he => by simp [hnone e he])
  have hfil2 : catalog.filter
      (fun e => matchAtoms (Atom.caret :: litAtoms (lower language)) e true)
      = catalog.filter (fun e => (lower language).isPrefixOf e) :=
    List.filter_congr (fun e _ => match_caret (lower language) e)
  simp only [find_model_name, parse_pattern (lower language) (lower model_size) hL hS,
    parse_caret (lower language) hL, hfil, hfil2]
  cases hany : catalog.any (fun e => (lower language).isPrefixOf e) with
  | true =>
    obtain ⟨e, he, hpe⟩ := List.any_eq_true.mp hany
    cases hpf : catalog.filter (fun e => (lower language).isPrefixOf e) with
    | nil =>
      exact absurd hpe (by simpa using List.filter_eq_nil_iff.mp hpf e he)
    | cons a tl => simp
  | false =>
    have : catalog.filter (fun e => (lower language).isPrefixOf e) = [] :=
      List.filter_eq_nil_iff.mpr (by simpa using List.any_eq_false.mp hany)
    rw [this]
    simp

/-- Witness for C3: both error kinds arise — `("es", "sm")` over a catalog
whose only `es`-entry lacks `sm` gives the model-size error, and `("fr",
"lg")` over the same catalog (no `fr`-prefix at all) gives the language
error. -/
theorem find_error_kinds_w :
    find_model_name [enCoreWebSm, esCoreNewsLg] ['e', 's'] ['s', 'm'] =
      some (Except.error (FindError.unsupportedModelSize ['e', 's'] ['s', 'm'])) ∧
    find_model_name [enCoreWebSm, esCoreNewsLg] ['f', 'r'] ['l', 'g'] =
      some (Except.error (FindError.unsupportedLanguage ['f', 'r'] ['l', 'g'])) :=
  ⟨(find_error_kinds [enCoreWebSm, esCoreNewsLg] ['e', 's'] ['s', 'm']
      (by decide) (by decide) (by decide) (by decide)).trans (by decide),
   (find_error_kinds [enCoreWebSm, esCoreNewsLg] ['f', 'r'] ['l', 'g']
      (by decide) (by decide) (by decide) (by decide)).trans (by decide)⟩

/-- C6 evidence: `find_model_name` does not escape pattern metacharacters.
With language `"e."` and size `"sm"` over the one-entry catalog
`[en_core_web_sm]`, the `'.'` acts as a wildcard and the entry is returned,
although under the literal reading of the claim the entry neither starts
with `"e."` nor should match, so the call ought to fail. -/
theorem find_no_escaping :
    find_model_name [enCoreWebSm] ['e', '.'] ['s', 'm'] = some (Except.ok enCoreWebSm) ∧
    specFullMatch ['e', '.'] ['s', 'm'] enCoreWebSm = false :=
  ⟨by decide, by decide⟩

/-!
## Lemmas about the token loop and `str.split`
-/

lemma splitAux_words_nonWs :
    ∀ (s acc : List Char), (∀ c ∈ acc, c.isWhitespace = false) →
      ∀ w ∈ splitAux s acc, w ≠ [] ∧ ∀ c ∈ w, c.isWhitespace = false := by
  intro s
  induction s with
  | nil =>
    intro acc hacc w hw
    by_cases ha : acc = []
    · rw [splitAux, if_pos ha] at hw
      exact absurd hw (by simp)
    · rw [splitAux, if_neg ha] at hw
      simp only [List.mem_singleton] at hw
      subst hw
      exact ⟨by simpa using ha, fun c hc => hacc c (List.mem_reverse.mp hc)⟩
  | cons c rest ih =>
    intro acc hacc w hw
    rw [splitAux] at hw
    by_cases hws : c.isWhitespace
    · rw [if_pos hws] at hw
      by_cases ha : acc = []
      · rw [if_pos ha] at hw
        exact ih [] (by simp) w hw
      · rw [if_neg ha] at hw
        rcases List.mem_cons.mp hw with hw1 | hw2
        · subst hw1
          exact ⟨by simpa using ha, fun x hx => hacc x (List.mem_reverse.mp hx)⟩
        · exact ih [] (by simp) w hw2
    · rw [if_neg hws] at hw
      refine ih (c :: acc) ?_ w hw
      intro x hx
      rcases List.mem_cons.mp hx with h1 | h2
      · subst h1; simpa using hws
      · exact hacc x h2

lemma splitAux_no_ws :
    ∀ (s acc : List Char), (∀ c ∈ s, c.isWhitespace = false) → (acc ≠ [] ∨ s ≠ []) →
      splitAux s acc = [acc.reverse ++ s] := by
  intro s
  induction s with
  | nil =>
    intro acc _ hne
    have ha : acc ≠ [] := by
      rcases hne with h | h
      · exact h
      · exact absurd rfl h
    rw [splitAux, if_neg ha]
    simp
  | cons c rest ih =>
    intro acc hs _
    have hc : c.isWhitespace = false := hs c (by simp)
    rw [splitAux, if_neg (by simp [hc])]
    rw [ih (c :: acc) (fun x hx => hs x (by simp [hx])) (Or.inl (by simp))]
    simp

/-- The first word produced by `str.split()` splits to itself: the
first-word truncation of `lemmatize_sentence` is idempotent. -/
lemma pySplit_first_word {l w : List Char} (h : (pySplit l).head? = some w) :
    pySplit w = [w] := by
  have hmem : w ∈ pySplit l := by
    rcases hsp : pySplit l with _ | ⟨a, tl⟩
    · rw [hsp] at h
      exact absurd h (by simp)
    · rw [hsp] at h
      simp only [List.head?_cons, Option.some.injEq] at h
      rw [← h]
      exact List.mem_cons_self a tl
  obtain ⟨hne, hnws⟩ := splitAux_words_nonWs l [] (by simp) w hmem
  unfold pySplit
  rw [splitAux_no_ws w [] hnws (Or.inr hne)]
  simp

/-- Characterization of a successful run of the token loop: one output pair
per non-dropped token, in token order, none for dropped tokens. -/
lemma processTokens_eq_of_split_ok (st : LemmaSettings) :
    ∀ ts : List Token,
      (∀ t ∈ ts, dropToken st t = false → st.return_just_first_word_of_lemma = true →
        pySplit t.lemma_ ≠ []) →
      processTokens st ts =
        some ((ts.filter (fun t => !dropToken st t)).map
          (fun t => (t.text, finalLemma st t))) := by
  intro ts
  induction ts with
  | nil => intro _; rfl
  | cons tok rest ih =>
    intro h
    have ihr := ih (fun t ht => h t (List.mem_cons_of_mem _ ht))
    simp only [processTokens, List.filter_cons]
    by_cases hd : ((!tok.is_alpha && st.filter_out_non_alpha) ||
        (tok.is_stop && st.filter_out_common)) = true
    · have hdT : dropToken st tok = true := hd
      rw [if_pos hd, ihr]
      simp [hdT]
    · have hdF : dropToken st tok = false := (Bool.not_eq_true _) ▸ hd
      rw [if_neg hd]
      by_cases hr : st.return_just_first_word_of_lemma = true
      · have hsp := h tok (List.mem_cons_self _ _) hdF hr
        cases hps : pySplit tok.lemma_ with
        | nil => exact absurd hps hsp
        | cons w ws =>
          simp only [hr, if_true, hps, List.head?_cons]
          rw [ihr]
          simp [hdF, finalLemma, hr, hps]
      · have hr' : st.return_just_first_word_of_lemma = false := by simpa using hr
        simp only [hr', Bool.false_eq_true, if_false]
        rw [ihr]
        simp [hdF, finalLemma, hr']

/-- A successful run emits exactly one pair per kept token. -/
lemma processTokens_length (st : LemmaSettings) :
    ∀ (ts : List Token) (out : List (List Char × List Char)),
      processTokens st ts = some out →
      out.length = (ts.filter (fun t => !dropToken st t)).length := by
  intro ts
  induction ts with
  | nil =>
    intro out h
    simp only [processTokens, Option.some.injEq] at h
    simp [← h]
  | cons tok rest ih =>
    intro out h
    simp only [processTokens] at h
    rw [List.filter_cons]
    by_cases hd : ((!tok.is_alpha && st.filter_out_non_alpha) ||
        (tok.is_stop && st.filter_out_common)) = true
    · have hdT : dropToken st tok = true := hd
      rw [if_pos hd] at h
      rw [if_neg (by simp [hdT])]
      exact ih out h
    · have hdF : dropToken st tok = false := (Bool.not_eq_true _) ▸ hd
      rw [if_neg hd] at h
      rw [if_pos (by simp [hdF])]
      cases hm : (if st.return_just_first_word_of_lemma = true
          then (pySplit tok.lemma_).head? else some tok.lemma_) with
      | none => rw [hm] at h; exact absurd h (by simp)
      | some lem =>
        rw [hm] at h
        simp only [Option.map_eq_some'] at h
        obtain ⟨ws, hws, hout⟩ := h
        subst hout
        simp [ih ws hws]

/-- Every original component of a successful run is the surface text of one
of the annotated tokens. -/
lemma processTokens_fst_mem (st : LemmaSettings) :
    ∀ (ts : List Token) (out : List (List Char × List Char)),
      processTokens st ts = some out →
      ∀ p ∈ out, ∃ t ∈ ts, p.1 = t.text := by
  intro ts
  induction ts with
  | nil =>
    intro out h
    simp only [processTokens, Option.some.injEq] at h
    simp [← h]
  | cons tok rest ih =>
    intro out h
    simp only [processTokens] at h
    by_cases hd : ((!tok.is_alpha && st.filter_out_non_alpha) ||
        (tok.is_stop && st.filter_out_common)) = true
    · rw [if_pos hd] at h
      intro p hp
      obtain ⟨t, ht, hpt⟩ := ih out h p hp
      exact ⟨t, List.mem_cons_of_mem _ ht, hpt⟩
    · rw [if_neg hd] at h
      cases hm : (if st.return_just_first_word_of_lemma = true
          then (pySplit tok.lemma_).head? else some tok.lemma_) with
      | none => rw [hm] at h; exact absurd h (by simp)
      | some lem =>
        rw [hm] at h
        simp only [Option.map_eq_some'] at h
        obtain ⟨ws, hws, hout⟩ := h
        subst hout
        intro p hp
        rcases List.mem_cons.mp hp with h1 | h2
        · subst h1
          exact ⟨tok, List.mem_cons_self _ _, rfl⟩
        · obtain ⟨t, ht, hpt⟩ := ih ws hws p h2
          exact ⟨t, List.mem_cons_of_mem _ ht, hpt⟩

/-- The original components of a successful run are exactly the surface
texts of the kept tokens, in order — they do not depend on the lemma
post-processing options. -/
lemma processTokens_fsts (st : LemmaSettings) :
    ∀ (ts : List Token) (out : List (List Char × List Char)),
      processTokens st ts = some out →
      out.map Prod.fst = (ts.filter (fun t => !dropToken st t)).map Token.text := by
  intro ts
  induction ts with
  | nil =>
    intro out h
    simp only [processTokens, Option.some.injEq] at h
    simp [← h]
  | cons tok rest ih =>
    intro out h
    simp only [processTokens] at h
    rw [List.filter_cons]
    by_cases hd : ((!tok.is_alpha && st.filter_out_non_alpha) ||
        (tok.is_stop && st.filter_out_common)) = true
    · have hdT : dropToken st tok = true := hd
      rw [if_pos hd] at h
      rw [if_neg (by simp [hdT])]
      exact ih out h
    · have hdF : dropToken st tok = false := (Bool.not_eq_true _) ▸ hd
      rw [if_neg hd] at h
      rw [if_pos (by simp [hdF])]
      cases hm : (if st.return_just_first_word_of_lemma = true
          then (pySplit tok.lemma_).head? else some tok.lemma_) with
      | none => rw [hm] at h; exact absurd h (by simp)
      | some lem =>
        rw [hm] at h
        simp only [Option.map_eq_some'] at h
        obtain ⟨ws, hws, hout⟩ := h
        subst hout
        simp [ih ws hws]

/-!
## Claim theorems: lemmatization pipeline
-/

/-- C2: whenever the first-word truncation cannot raise (every surviving
token has a lemma with a nonempty split), `lemmatize_sentence` emits exactly one
(original text, final lemma) pair, in token order, for each token whose
drop condition is false, and nothing for dropped tokens; duplicates map to
separate entries since the output is a per-token map over the kept list. -/
theorem lemmatize_emits_per_token (st : LemmaSettings) (nlp : List Char → List Token)
    (input : List Char)
    (hsplit : ∀ t ∈ nlp (if st.convert_input_to_lower then lower input else input),
      dropToken st t = false → st.return_just_first_word_of_lemma = true →
      pySplit t.lemma_ ≠ []) :
    lemmatize_sentence st nlp input =
      some (((nlp (if st.convert_input_to_lower then lower input else input)).filter
        (fun t => !dropToken st t)).map (fun t => (t.text, finalLemma st t))) := by
  simp only [lemmatize_sentence]
  exact processTokens_eq_of_split_ok st _ hsplit

/-- Witness for C2: with both filters on, the stop word and the punctuation
token are dropped and the duplicated token `cats` yields two separate
entries in order. -/
theorem lemmatize_emits_per_token_w :
    lemmatize_sentence ⟨true, true, false, false, false⟩ nlpC2 [] =
      some [(['c','a','t','s'], ['c','a','t']), (['c','a','t','s'], ['c','a','t'])] :=
  (lemmatize_emits_per_token ⟨true, true, false, false, false⟩ nlpC2 []
    (by decide)).trans (by decide)

/-- C4 evidence: with `return_just_first_word_of_lemma` enabled and a
surviving token whose lemma string is empty, `lemmatize_sentence` does not
return a list — `lemma.split()[0]` raises `IndexError` (embedded as
`none`). -/
theorem lemmatize_crash_on_empty_lemma :
    lemmatize_sentence stC4 (fun _ => [tokC4]) ['x'] = none := by decide

/-- C7: enabling the two filter options never adds an emitted pair — any
successful run is at most as long as the successful run with both filters
disabled and the remaining settings unchanged. -/
theorem filter_monotone_length (st : LemmaSettings) (nlp : List Char → List Token)
    (input : List Char) (out1 out0 : List (List Char × List Char))
    (h1 : lemmatize_sentence st nlp input = some out1)
    (h0 : lemmatize_sentence (st.withFilters false false) nlp input = some out0) :
    out1.length ≤ out0.length := by
  simp only [lemmatize_sentence, LemmaSettings.withFilters] at h1 h0
  have e1 := processTokens_length st _ out1 h1
  have e0 := processTokens_length (st.withFilters false false) _ out0 h0
  have hall : (List.filter (fun t => !dropToken (st.withFilters false false) t)
      (nlp (if st.convert_input_to_lower = true then lower input else input))) =
      nlp (if st.convert_input_to_lower = true then lower input else input) :=
    List.filter_eq_self.mpr (fun t _ => by simp [dropToken, LemmaSettings.withFilters])
  rw [e1, e0, hall]
  exact List.length_filter_le _ _

/-- Witness for C7: the filtered run over the example tokens emits two
pairs, the unfiltered run four. -/
theorem filter_monotone_length_w :
    ([(['c','a','t','s'], ['c','a','t']), (['c','a','t','s'], ['c','a','t'])] :
        List (List Char × List Char)).length ≤
      ([(['T','h','e'], ['t','h','e']), ([','], [',']), (['c','a','t','s'], ['c','a','t']),
        (['c','a','t','s'], ['c','a','t'])] : List (List Char × List Char)).length :=
  filter_monotone_length ⟨true, true, false, false, false⟩ nlpC2 []
    [(['c','a','t','s'], ['c','a','t']), (['c','a','t','s'], ['c','a','t'])]
    [(['T','h','e'], ['t','h','e']), ([','], [',']), (['c','a','t','s'], ['c','a','t']),
      (['c','a','t','s'], ['c','a','t'])]
    (by decide) (by decide)

/-- C8: whenever both runs return, enabling
`return_just_first_word_of_lemma` never changes the number of emitted
pairs and changes only the lemma strings — the original components of the
two outputs are identical, in the same order — and the first-word
truncation is idempotent: a lemma it has already produced splits back to
itself. -/
theorem first_word_count_and_idem (st : LemmaSettings) (nlp : List Char → List Token)
    (input : List Char) (out1 out0 : List (List Char × List Char))
    (h1 : lemmatize_sentence (st.withFirstWord true) nlp input = some out1)
    (h0 : lemmatize_sentence (st.withFirstWord false) nlp input = some out0) :
    out1.length = out0.length ∧ out1.map Prod.fst = out0.map Prod.fst ∧
      ∀ l w : List Char, (pySplit l).head? = some w → (pySplit w).head? = some w := by
  refine ⟨?_, ?_, ?_⟩
  · have e1 := processTokens_length (st.withFirstWord true) _ out1 h1
    have e0 := processTokens_length (st.withFirstWord false) _ out0 h0
    rw [e1, e0]
    rfl
  · have f1 := processTokens_fsts (st.withFirstWord true) _ out1 h1
    have f0 := processTokens_fsts (st.withFirstWord false) _ out0 h0
    rw [f1, f0]
    rfl
  · intro l w hw
    rw [pySplit_first_word hw]
    rfl

/-- Witness for C8: the token with the two-word lemma `"b c"` is emitted
exactly once in both runs, with the same original `"a"`, truncated to
`"b"` in the first run only. -/
theorem first_word_count_and_idem_w :
    ([(['a'], ['b'])] : List (List Char × List Char)).length =
        ([(['a'], ['b', ' ', 'c'])] : List (List Char × List Char)).length ∧
      ([(['a'], ['b'])] : List (List Char × List Char)).map Prod.fst =
        ([(['a'], ['b', ' ', 'c'])] : List (List Char × List Char)).map Prod.fst ∧
      ∀ l w : List Char, (pySplit l).head? = some w → (pySplit w).head? = some w :=
  first_word_count_and_idem ⟨false, false, false, false, false⟩ nlpC8 []
    [(['a'], ['b'])] [(['a'], ['b', ' ', 'c'])] (by decide) (by decide)

/-- C9: with `convert_input_to_lower` enabled the annotator only ever sees
the lowercased input, so every emitted original is the surface text of a
token of the lowercased input — the original casing of the caller is not preserved. -/
theorem lower_input_originals (st : LemmaSettings) (nlp : List Char → List Token)
    (input : List Char) (out : List (List Char × List Char))
    (hlow : st.convert_input_to_lower = true)
    (hout : lemmatize_sentence st nlp input = some out) :
    lemmatize_sentence st nlp input = processTokens st (nlp (lower input)) ∧
      ∀ p ∈ out, ∃ t ∈ nlp (lower input), p.1 = t.text := by
  have hdoc : lemmatize_sentence st nlp input = processTokens st (nlp (lower input)) := by
    simp [lemmatize_sentence, hlow]
  exact ⟨hdoc, processTokens_fst_mem st _ out (hdoc ▸ hout)⟩

/-- Witness for C9: input `"Ab"` is annotated as its lowercased form
`"ab"`, which is the original recorded in the single emitted pair. -/
theorem lower_input_originals_w :
    lemmatize_sentence ⟨false, false, true, false, false⟩ nlpC9 ['A', 'b'] =
        processTokens ⟨false, false, true, false, false⟩ (nlpC9 (lower ['A', 'b'])) ∧
      ∀ p ∈ [((['a', 'b'] : List Char), (['a', 'b'] : List Char))],
        ∃ t ∈ nlpC9 (lower ['A', 'b']), p.1 = t.text :=
  lower_input_originals ⟨false, false, true, false, false⟩ nlpC9 ['A', 'b']
    [(['a', 'b'], ['a', 'b'])] (by decide) (by decide)

/-- C10: the `lemmatize_sentence` method leaves the facade state — all five
settings fields, the stored model name and the loaded pipeline — exactly as
it was, and its result is the pure pipeline function of the stored
settings. -/
theorem lemmatize_preserves_state (self : LemonTizer) (input_str : List Char) :
    (self.lemmatize_sentence_m input_str).1 = self ∧
      (self.lemmatize_sentence_m input_str).2 =
        lemmatize_sentence self.settings self._nlp input_str :=
  ⟨rfl, rfl⟩

/-!
## Claim theorems: facade lifecycle
-/

/-- C5 (amended): a failing resolution aborts `init_model` with the model
state (stored name and loaded pipeline) unchanged, but the settings record
does NOT keep its previous values — it has already been reset to the five
defaults before resolution ran. -/
theorem init_model_failure_state (catalog : List (List Char))
    (load : List Char → List Char → List Token) (self self' : LemonTizer)
    (language model_size : List Char) (e : FindError)
    (h : init_model catalog load self language model_size = some (self', Except.error e)) :
    self'._model_name = self._model_name ∧ self'._nlp = self._nlp ∧
      self'._filter_out_non_alpha = false ∧ self'._filter_out_common = false ∧
      self'._convert_input_to_lower = false ∧ self'._convert_output_to_lower = false ∧
      self'._return_just_first_word_of_lemma = false := by
  cases hf : find_model_name catalog language model_size with
  | none => simp only [init_model, hf] at h; exact absurd h (by simp)
  | some r =>
    cases r with
    | ok mn => simp [init_model, hf] at h
    | error e2 =>
      simp only [init_model, hf, Option.some.injEq, Prod.mk.injEq] at h
      obtain ⟨h1, -⟩ := h
      rw [← h1]
      exact ⟨rfl, rfl, rfl, rfl, rfl, rfl, rfl⟩

/-- C5 counterexample: before the failing switch the facade has
`_filter_out_common = true`; the failed resolution returns the facade with
that field (and the other four settings) reset to `false`, so a field of
the settings record IS changed by the failed attempt. -/
theorem init_model_resets_settings_cex :
    s0cex._filter_out_common = true ∧
      init_model [enCoreWebSm] loadCex s0cex ['f', 'r'] ['s', 'm'] =
        some (s1cex, Except.error (FindError.unsupportedLanguage ['f', 'r'] ['s', 'm'])) ∧
      s1cex._filter_out_common = false :=
  ⟨rfl, rfl, rfl⟩

/-- Witness for the amended C5: at the concrete failing switch the model
state is untouched and the settings are the defaults. -/
theorem init_model_failure_state_w :
    s1cex._model_name = s0cex._model_name ∧ s1cex._nlp = s0cex._nlp ∧
      s1cex._filter_out_non_alpha = false ∧ s1cex._filter_out_common = false ∧
      s1cex._convert_input_to_lower = false ∧ s1cex._convert_output_to_lower = false ∧
      s1cex._return_just_first_word_of_lemma = false :=
  init_model_failure_state [enCoreWebSm] loadCex s0cex s1cex ['f', 'r'] ['s', 'm']
    (FindError.unsupportedLanguage ['f', 'r'] ['s', 'm']) rfl
